import Mathlib

/-!
Verification development for the game-ua-localization-tools repository.

The development shallowly embeds the binary common-texts codec, the heuristic
record scanner, the translation-table reader, the merge loop and the TSV
escaping helpers, translated from the Python sources:
  tools/pack_common_texts.py, tools/extract_common_texts.py,
  tools/convert_common_texts_to_tsv.py, scripts/extract_tlk_xml.py,
  scripts/apply_tlk_tsv.py.

Bytes are modelled as natural numbers below 256 in lists; Python text
(`str`) is modelled as a list of Unicode code points (`List Nat`) for the
binary components and as Lean `String` for the TSV / merge components.
-/

/-- Little-endian 16-bit value from a 2-byte list, as struct.unpack of the
format string with one H field does. -/
def le16 (bs : List Nat) : Nat :=
  bs.getD 0 0 + 256 * bs.getD 1 0

/-- Little-endian 32-bit value from a 4-byte list, as struct.unpack of one
I field does. -/
def le32 (bs : List Nat) : Nat :=
  bs.getD 0 0 + 256 * (bs.getD 1 0 + 256 * (bs.getD 2 0 + 256 * bs.getD 3 0))

/-- The two little-endian bytes of a 16-bit value (struct.pack, H field);
only used on arguments below 65536. -/
def encU16 (n : Nat) : List Nat := [n % 256, n / 256]

/-- The four little-endian bytes of a 32-bit value (struct.pack, I field);
only used on arguments below 2 to the 32. -/
def encU32 (n : Nat) : List Nat :=
  [n % 256, n / 256 % 256, n / 65536 % 256, n / 16777216 % 256]

/-- Errors raised by parse_binary in tools/pack_common_texts.py.  The Python
code raises ValueError with distinct messages; the names follow the error
taxonomy of the specification. -/
inductive ParseError where
  | TruncatedInput
  | MalformedKey
  | MalformedValue
  | TrailingData
deriving DecidableEq, Repr

/-- read_exact from tools/pack_common_texts.py: read exactly size bytes or
fail.  Returns the bytes read and the remaining input. -/
def read_exact (data : List Nat) (size : Nat) :
    Except ParseError (List Nat × List Nat) :=
  if size ≤ data.length then .ok (data.take size, data.drop size)
  else .error .TruncatedInput

/-- Strict UTF-8 decoding as the Python bytes.decode with the utf-8 codec:
rejects continuation-byte leads, overlong forms, surrogates and code points
above 0x10FFFF.  Returns the list of decoded code points. -/
def utf8Decode : List Nat → Option (List Nat)
  | [] => some []
  | b :: rest =>
    if b < 0x80 then (utf8Decode rest).map (b :: ·)
    else if b < 0xC2 then none
    else if b < 0xE0 then
      match rest with
      | b1 :: r =>
        if 0x80 ≤ b1 ∧ b1 < 0xC0 then
          (utf8Decode r).map (((b - 0xC0) * 64 + (b1 - 0x80)) :: ·)
        else none
      | _ => none
    else if b < 0xF0 then
      match rest with
      | b1 :: b2 :: r =>
        if (0x80 ≤ b1 ∧ b1 < 0xC0) ∧ (0x80 ≤ b2 ∧ b2 < 0xC0) ∧
            (b ≠ 0xE0 ∨ 0xA0 ≤ b1) ∧ (b ≠ 0xED ∨ b1 < 0xA0) then
          (utf8Decode r).map
            (((b - 0xE0) * 4096 + (b1 - 0x80) * 64 + (b2 - 0x80)) :: ·)
        else none
      | _ => none
    else if b < 0xF5 then
      match rest with
      | b1 :: b2 :: b3 :: r =>
        if (0x80 ≤ b1 ∧ b1 < 0xC0) ∧ (0x80 ≤ b2 ∧ b2 < 0xC0) ∧
            (0x80 ≤ b3 ∧ b3 < 0xC0) ∧
            (b ≠ 0xF0 ∨ 0x90 ≤ b1) ∧ (b ≠ 0xF4 ∨ b1 < 0x90) then
          (utf8Decode r).map
            (((b - 0xF0) * 262144 + (b1 - 0x80) * 4096 +
              (b2 - 0x80) * 64 + (b3 - 0x80)) :: ·)
        else none
      | _ => none
    else none

/-- Strict UTF-16LE decoding as the Python bytes.decode with the utf-16-le
codec: bytes are paired little-endian into units, surrogate pairs combine,
lone or unpaired surrogates and a trailing odd byte are errors. -/
def utf16leDecode : List Nat → Option (List Nat)
  | [] => some []
  | [_] => none
  | b0 :: b1 :: rest =>
    let u := b0 + 256 * b1
    if 0xD800 ≤ u ∧ u < 0xDC00 then
      match rest with
      | b2 :: b3 :: rest2 =>
        let u2 := b2 + 256 * b3
        if 0xDC00 ≤ u2 ∧ u2 < 0xE000 then
          (utf16leDecode rest2).map
            ((0x10000 + (u - 0xD800) * 1024 + (u2 - 0xDC00)) :: ·)
        else none
      | _ => none
    else if 0xDC00 ≤ u ∧ u < 0xE000 then none
    else (utf16leDecode rest).map (u :: ·)

/-- A Unicode scalar value: a code point that is not a surrogate and is in
range.  Python strings produced by strict decoding contain only these. -/
def isScalar (c : Nat) : Prop := c < 0x110000 ∧ ¬(0xD800 ≤ c ∧ c < 0xE000)

instance (c : Nat) : Decidable (isScalar c) := by
  unfold isScalar; infer_instance

/-- UTF-16LE encoding of one scalar code point (str.encode with the
utf-16-le codec, per character). -/
def utf16leEncodeChar (c : Nat) : List Nat :=
  if c < 0x10000 then [c % 256, c / 256]
  else
    let c' := c - 0x10000
    let hi := 0xD800 + c' / 1024
    let lo := 0xDC00 + c' % 1024
    [hi % 256, hi / 256, lo % 256, lo / 256]

/-- UTF-16LE encoding of a code-point sequence. -/
def utf16leEncode (s : List Nat) : List Nat :=
  (s.map utf16leEncodeChar).flatten

/-- Number of UTF-16 code units of a code-point sequence. -/
def utf16Units (s : List Nat) : Nat :=
  (s.map (fun c => if c < 0x10000 then 1 else 2)).sum

/-- One localization entry, as the Entry dataclass in
tools/pack_common_texts.py: decoded key, decoded value, and the raw key
bytes kept verbatim. -/
structure Entry where
  key : List Nat
  value : List Nat
  key_bytes : List Nat
deriving DecidableEq, Repr

/-- The record-reading loop of parse_binary in tools/pack_common_texts.py:
count iterations, each reading key length, key bytes, value unit count and
value bytes, decoding key as UTF-8 and value as UTF-16LE.  Returns the
entries and the unconsumed remainder of the input. -/
def parseRecords : Nat → List Nat → Except ParseError (List Entry × List Nat)
  | 0, data => .ok ([], data)
  | c + 1, data =>
    match read_exact data 2 with
    | .error e => .error e
    | .ok (klb, r1) =>
      match read_exact r1 (le16 klb) with
      | .error e => .error e
      | .ok (kb, r2) =>
        match utf8Decode kb with
        | none => .error .MalformedKey
        | some key =>
          match read_exact r2 2 with
          | .error e => .error e
          | .ok (vlb, r3) =>
            match read_exact r3 (le16 vlb * 2) with
            | .error e => .error e
            | .ok (vb, r4) =>
              match utf16leDecode vb with
              | none => .error .MalformedValue
              | some value =>
                match parseRecords c r4 with
                | .error e => .error e
                | .ok (es, r5) => .ok (⟨key, value, kb⟩ :: es, r5)

/-- The count field of the 8-byte header (second little-endian u32). -/
def hdrCount (data : List Nat) : Nat := le32 ((data.drop 4).take 4)

/-- The version field of the 8-byte header (first little-endian u32). -/
def hdrVersion (data : List Nat) : Nat := le32 (data.take 4)

/-- parse_binary from tools/pack_common_texts.py (identical in
tools/extract_common_texts.py): read the 8-byte header, parse exactly count
records, and fail on any remaining byte. -/
def parse_binary (data : List Nat) : Except ParseError (Nat × List Entry) :=
  match read_exact data 8 with
  | .error e => .error e
  | .ok (_, rest) =>
    match parseRecords (hdrCount data) rest with
    | .error e => .error e
    | .ok (entries, rest2) =>
      if rest2.isEmpty then .ok (hdrVersion data, entries)
      else .error .TrailingData

/-- Errors raised while writing the output binary in main of
tools/pack_common_texts.py.  The Python code raises struct.error when a
pack field is out of range and UnicodeEncodeError on a surrogate; the
specification names the value-length overflow ValueTooLong. -/
inductive EncodeError where
  | ValueTooLong
  | KeyTooLong
  | HeaderFieldTooLarge
  | UnencodableValue
deriving DecidableEq, Repr

/-- The byte image of one record as written by main of
tools/pack_common_texts.py: key length, key bytes, value unit count
(encoded byte length divided by two), value bytes. -/
def encRecordBytes (e : Entry) : List Nat :=
  let vb := utf16leEncode e.value
  encU16 e.key_bytes.length ++ e.key_bytes ++ encU16 (vb.length / 2) ++ vb

/-- One record write of the output loop in main of
tools/pack_common_texts.py, with the failure points in source order: the
value is UTF-16LE encoded first (UnicodeEncodeError on a surrogate), then
the key length is packed (struct.error when it exceeds 65535), then the
value unit count is packed (struct.error, named ValueTooLong by the
specification, when it exceeds 65535). -/
def encodeRecord (e : Entry) : Except EncodeError (List Nat) :=
  if ¬ (∀ c ∈ e.value, isScalar c) then .error .UnencodableValue
  else if ¬ e.key_bytes.length ≤ 65535 then .error .KeyTooLong
  else
    let vb := utf16leEncode e.value
    if ¬ vb.length / 2 ≤ 65535 then .error .ValueTooLong
    else .ok (encRecordBytes e)

instance (e : Entry) : Decidable (∀ c ∈ e.value, isScalar c) := by
  infer_instance

/-- The record-writing loop of main in tools/pack_common_texts.py. -/
def encodeRecords : List Entry → Except EncodeError (List Nat)
  | [] => .ok []
  | e :: rest =>
    match encodeRecord e with
    | .error err => .error err
    | .ok bs =>
      match encodeRecords rest with
      | .error err => .error err
      | .ok bs2 => .ok (bs ++ bs2)

/-- The full output write of main in tools/pack_common_texts.py applied to
an entry sequence (the new values equal to the entry values): pack the
header, then each record.  struct.pack with two I fields fails when
version or count exceeds the 32-bit range. -/
def encodeEntries (version : Nat) (entries : List Entry) :
    Except EncodeError (List Nat) :=
  if ¬ (version < 2 ^ 32 ∧ entries.length < 2 ^ 32) then
    .error .HeaderFieldTooLarge
  else
    match encodeRecords entries with
    | .error err => .error err
    | .ok recs => .ok (encU32 version ++ encU32 entries.length ++ recs)

/-! ### Basic lemmas about the byte-level primitives -/

theorem le16_encU16 (n : Nat) (h : n < 65536) : le16 (encU16 n) = n := by
  simp only [le16, encU16, List.getD]
  simp only [List.get?_eq_getElem?]
  simp [List.getElem?_cons]
  omega

theorem le32_encU32 (n : Nat) (h : n < 2 ^ 32) : le32 (encU32 n) = n := by
  simp only [le32, encU32, List.getD]
  simp only [List.get?_eq_getElem?]
  simp [List.getElem?_cons]
  omega

theorem encU16_length (n : Nat) : (encU16 n).length = 2 := rfl

theorem encU32_length (n : Nat) : (encU32 n).length = 4 := rfl

theorem read_exact_append (a b : List Nat) :
    read_exact (a ++ b) a.length = .ok (a, b) := by
  simp [read_exact, List.take_left' rfl, List.drop_left' rfl]

theorem read_exact_short (data : List Nat) (size : Nat)
    (h : data.length < size) : read_exact data size = .error .TruncatedInput := by
  rw [read_exact, if_neg (by omega)]

/-! ### UTF-16LE round trip -/

theorem utf16leDecode_cons_bmp (b0 b1 : Nat) (rest : List Nat)
    (h1 : ¬(0xD800 ≤ b0 + 256 * b1 ∧ b0 + 256 * b1 < 0xDC00))
    (h2 : ¬(0xDC00 ≤ b0 + 256 * b1 ∧ b0 + 256 * b1 < 0xE000)) :
    utf16leDecode (b0 :: b1 :: rest) =
      (utf16leDecode rest).map ((b0 + 256 * b1) :: ·) := by
  match rest with
  | [] => simp only [utf16leDecode]; simp [h1, h2]
  | [b2] => simp only [utf16leDecode]; simp [h1, h2]
  | b2 :: b3 :: r => simp only [utf16leDecode]; simp [h1, h2]

theorem utf16leDecode_cons_surr (b0 b1 b2 b3 : Nat) (rest : List Nat)
    (hH : 0xD800 ≤ b0 + 256 * b1 ∧ b0 + 256 * b1 < 0xDC00)
    (hL : 0xDC00 ≤ b2 + 256 * b3 ∧ b2 + 256 * b3 < 0xE000) :
    utf16leDecode (b0 :: b1 :: b2 :: b3 :: rest) =
      (utf16leDecode rest).map
        ((0x10000 + (b0 + 256 * b1 - 0xD800) * 1024 +
          (b2 + 256 * b3 - 0xDC00)) :: ·) := by
  simp only [utf16leDecode]
  simp [hH, hL]

theorem utf16leDecode_encodeChar (c : Nat) (hc : isScalar c) (rest : List Nat) :
    utf16leDecode (utf16leEncodeChar c ++ rest) =
      (utf16leDecode rest).map (c :: ·) := by
  obtain ⟨hlt, hsur⟩ := hc
  by_cases hbmp : c < 0x10000
  · have henc : utf16leEncodeChar c = [c % 256, c / 256] := by
      simp [utf16leEncodeChar, hbmp]
    rw [henc]
    show utf16leDecode (c % 256 :: c / 256 :: rest) = _
    rw [utf16leDecode_cons_bmp _ _ _ (by omega) (by omega)]
    have hu : c % 256 + 256 * (c / 256) = c := by omega
    rw [hu]
  · have hc' : c - 0x10000 < 0x100000 := by omega
    set c' := c - 0x10000 with hc'def
    have hdiv : c' / 1024 < 1024 := by omega
    have henc : utf16leEncodeChar c =
        [(0xD800 + c' / 1024) % 256, (0xD800 + c' / 1024) / 256,
         (0xDC00 + c' % 1024) % 256, (0xDC00 + c' % 1024) / 256] := by
      simp [utf16leEncodeChar, hbmp, hc'def]
    rw [henc]
    show utf16leDecode ((0xD800 + c' / 1024) % 256 :: (0xD800 + c' / 1024) / 256 ::
      (0xDC00 + c' % 1024) % 256 :: (0xDC00 + c' % 1024) / 256 :: rest) = _
    rw [utf16leDecode_cons_surr _ _ _ _ _ (by omega) (by omega)]
    have hval : 0x10000 +
        ((0xD800 + c' / 1024) % 256 + 256 * ((0xD800 + c' / 1024) / 256) - 0xD800) * 1024 +
        ((0xDC00 + c' % 1024) % 256 + 256 * ((0xDC00 + c' % 1024) / 256) - 0xDC00) = c := by
      omega
    rw [hval]

theorem utf16leDecode_encode (v : List Nat) (h : ∀ c ∈ v, isScalar c) :
    utf16leDecode (utf16leEncode v) = some v := by
  induction v with
  | nil => rfl
  | cons c rest ih =>
    have hstep : utf16leEncode (c :: rest) =
        utf16leEncodeChar c ++ utf16leEncode rest := by
      simp [utf16leEncode]
    rw [hstep, utf16leDecode_encodeChar c (h c (by simp)) _,
      ih (fun x hx => h x (by simp [hx]))]
    rfl

theorem utf16leEncodeChar_length (c : Nat) :
    (utf16leEncodeChar c).length = if c < 0x10000 then 2 else 4 := by
  by_cases h : c < 0x10000 <;> simp [utf16leEncodeChar, h]

theorem utf16leEncode_length (s : List Nat) :
    (utf16leEncode s).length = 2 * utf16Units s := by
  induction s with
  | nil => rfl
  | cons c rest ih =>
    have hstep : utf16leEncode (c :: rest) =
        utf16leEncodeChar c ++ utf16leEncode rest := by
      simp [utf16leEncode]
    rw [hstep]
    simp only [List.length_append, ih, utf16leEncodeChar_length]
    by_cases h : c < 0x10000 <;> simp [utf16Units, h] <;> ring

/-! ### Encoding success and the strict-codec round trip -/

/-- Well-formedness of one entry, as guaranteed for entries produced by
parse_binary: the key bytes fit a u16 length field and decode as UTF-8 to
the key, the value is a scalar string, and its UTF-16 unit count fits the
u16 unit field. -/
def WfEntry (e : Entry) : Prop :=
  e.key_bytes.length ≤ 65535 ∧ utf8Decode e.key_bytes = some e.key ∧
    (∀ c ∈ e.value, isScalar c) ∧ utf16Units e.value ≤ 65535

instance (e : Entry) : Decidable (WfEntry e) := by
  unfold WfEntry; infer_instance

theorem encodeRecord_ok (e : Entry) (h : WfEntry e) :
    encodeRecord e = .ok (encRecordBytes e) := by
  obtain ⟨hk, _, hs, hu⟩ := h
  have hlen : (utf16leEncode e.value).length / 2 ≤ 65535 := by
    rw [utf16leEncode_length]; omega
  simp [encodeRecord, hk, hlen]
  exact hs

theorem encodeRecords_ok (entries : List Entry) (h : ∀ e ∈ entries, WfEntry e) :
    encodeRecords entries = .ok (entries.map encRecordBytes).flatten := by
  induction entries with
  | nil => rfl
  | cons e rest ih =>
    rw [encodeRecords, encodeRecord_ok e (h e (by simp)),
      ih (fun x hx => h x (by simp [hx]))]
    rfl

theorem read_exact_encU16 (n : Nat) (b : List Nat) :
    read_exact (encU16 n ++ b) 2 = .ok (encU16 n, b) :=
  read_exact_append _ _

theorem parseRecords_encBytes (entries : List Entry) (tail : List Nat)
    (h : ∀ e ∈ entries, WfEntry e) :
    parseRecords entries.length ((entries.map encRecordBytes).flatten ++ tail) =
      .ok (entries, tail) := by
  induction entries with
  | nil => rfl
  | cons e rest ih =>
    obtain ⟨hk, hdec, hs, hu⟩ := h e (by simp)
    have hb : ((e :: rest).map encRecordBytes).flatten ++ tail =
        encU16 e.key_bytes.length ++ (e.key_bytes ++
          (encU16 ((utf16leEncode e.value).length / 2) ++
            (utf16leEncode e.value ++ ((rest.map encRecordBytes).flatten ++ tail)))) := by
      simp [encRecordBytes, List.append_assoc]
    have hk16 : le16 (encU16 e.key_bytes.length) = e.key_bytes.length :=
      le16_encU16 _ (by omega)
    have hul : (utf16leEncode e.value).length / 2 ≤ 65535 := by
      rw [utf16leEncode_length]; omega
    have hv16 : le16 (encU16 ((utf16leEncode e.value).length / 2)) =
        (utf16leEncode e.value).length / 2 := le16_encU16 _ (by omega)
    have hvl : (utf16leEncode e.value).length / 2 * 2 =
        (utf16leEncode e.value).length := by
      rw [utf16leEncode_length]; omega
    rw [List.length_cons, hb, parseRecords]
    simp only [read_exact_encU16, hk16, read_exact_append, hdec, hv16, hvl,
      utf16leDecode_encode _ hs, ih (fun x hx => h x (by simp [hx]))]

/-- The byte image of the whole output file written by main of
tools/pack_common_texts.py. -/
def encFileBytes (version : Nat) (entries : List Entry) : List Nat :=
  encU32 version ++ encU32 entries.length ++ (entries.map encRecordBytes).flatten

theorem encodeEntries_ok (version : Nat) (entries : List Entry)
    (hv : version < 2 ^ 32) (hc : entries.length < 2 ^ 32)
    (h : ∀ e ∈ entries, WfEntry e) :
    encodeEntries version entries = .ok (encFileBytes version entries) := by
  rw [encodeEntries, if_neg (not_not_intro ⟨hv, hc⟩), encodeRecords_ok entries h]
  rfl

theorem parse_binary_encFileBytes (version : Nat) (entries : List Entry)
    (hv : version < 2 ^ 32) (hc : entries.length < 2 ^ 32)
    (h : ∀ e ∈ entries, WfEntry e) :
    parse_binary (encFileBytes version entries) = .ok (version, entries) ∧
      hdrCount (encFileBytes version entries) = entries.length := by
  have hsplit : encFileBytes version entries =
      (encU32 version ++ encU32 entries.length) ++
        (entries.map encRecordBytes).flatten := by
    simp [encFileBytes, List.append_assoc]
  have hdrop : (encFileBytes version entries).drop 4 =
      encU32 entries.length ++ (entries.map encRecordBytes).flatten := by
    rw [encFileBytes, List.append_assoc]
    exact List.drop_left' (by rfl)
  have hcount : hdrCount (encFileBytes version entries) = entries.length := by
    rw [hdrCount, hdrop, List.take_left' (by rfl), le32_encU32 _ hc]
  have hversion : hdrVersion (encFileBytes version entries) = version := by
    rw [hdrVersion, hsplit, List.append_assoc, List.take_left' (by rfl),
      le32_encU32 _ hv]
  refine ⟨?_, hcount⟩
  have h8 : read_exact (encFileBytes version entries) 8 =
      .ok (encU32 version ++ encU32 entries.length,
        (entries.map encRecordBytes).flatten) := by
    rw [hsplit]; exact read_exact_append _ _
  have hrecs := parseRecords_encBytes entries [] h
  rw [List.append_nil] at hrecs
  simp only [parse_binary, h8, hcount, hrecs, hversion, List.isEmpty_nil, if_true]

/-- C1: round trip of the strict codec.  For every version and every
well-formed entry sequence, encoding succeeds and decoding the produced
bytes returns the version, a count equal to the sequence length, and the
identical entry sequence. -/
theorem strict_codec_roundtrip (version : Nat) (entries : List Entry)
    (hv : version < 2 ^ 32) (hc : entries.length < 2 ^ 32)
    (h : ∀ e ∈ entries, WfEntry e) :
    ∃ bytes, encodeEntries version entries = .ok bytes ∧
      parse_binary bytes = .ok (version, entries) ∧
      hdrCount bytes = entries.length := by
  refine ⟨encFileBytes version entries, encodeEntries_ok version entries hv hc h, ?_, ?_⟩
  · exact (parse_binary_encFileBytes version entries hv hc h).1
  · exact (parse_binary_encFileBytes version entries hv hc h).2

/-- Witness for C1 at a concrete input: one entry with key a_b and value x. -/
theorem strict_codec_roundtrip_witness :
    ∃ bytes, encodeEntries 1 [⟨[97, 95, 98], [120], [97, 95, 98]⟩] = .ok bytes ∧
      parse_binary bytes = .ok (1, [⟨[97, 95, 98], [120], [97, 95, 98]⟩]) ∧
      hdrCount bytes = 1 :=
  strict_codec_roundtrip 1 [⟨[97, 95, 98], [120], [97, 95, 98]⟩]
    (by decide) (by decide) (by decide)

/-! ### C4: encode fails with ValueTooLong on an over-long value -/

theorem encodeRecord_succeeds (e : Entry)
    (hkey : e.key_bytes.length ≤ 65535)
    (hs : ∀ c ∈ e.value, isScalar c)
    (hu : utf16Units e.value ≤ 65535) :
    encodeRecord e = .ok (encRecordBytes e) := by
  have hlen : (utf16leEncode e.value).length / 2 ≤ 65535 := by
    rw [utf16leEncode_length]; omega
  simp [encodeRecord, hkey, hlen]
  exact hs

theorem encodeRecord_value_too_long (e : Entry)
    (hkey : e.key_bytes.length ≤ 65535)
    (hs : ∀ c ∈ e.value, isScalar c)
    (hbad : 65535 < utf16Units e.value) :
    encodeRecord e = .error .ValueTooLong := by
  have hlen : ¬ (utf16leEncode e.value).length / 2 ≤ 65535 := by
    rw [utf16leEncode_length]; omega
  simp [encodeRecord, not_not_intro hs, not_not_intro hkey, hlen]

/-- C4: the output write of main in tools/pack_common_texts.py fails with
ValueTooLong, and in no other way, whenever some value in the sequence has
a UTF-16 code-unit count above 65535, provided the sequence is otherwise
encodable (header fields in 32-bit range, key byte lengths in 16-bit
range, scalar values) as the decode-merge pipeline guarantees. -/
theorem encode_value_too_long (version : Nat) (entries : List Entry)
    (hv : version < 2 ^ 32) (hc : entries.length < 2 ^ 32)
    (hkeys : ∀ e ∈ entries, e.key_bytes.length ≤ 65535)
    (hscal : ∀ e ∈ entries, ∀ c ∈ e.value, isScalar c)
    (hbad : ∃ e ∈ entries, 65535 < utf16Units e.value) :
    encodeEntries version entries = .error .ValueTooLong := by
  rw [encodeEntries, if_neg (not_not_intro ⟨hv, hc⟩)]
  have hrec : encodeRecords entries = .error .ValueTooLong := by
    clear hv hc
    induction entries with
    | nil => obtain ⟨e, he, _⟩ := hbad; cases he
    | cons e rest ih =>
      rw [encodeRecords]
      by_cases hbade : 65535 < utf16Units e.value
      · rw [encodeRecord_value_too_long e (hkeys e (by simp))
          (hscal e (by simp)) hbade]
      · rw [encodeRecord_succeeds e (hkeys e (by simp)) (hscal e (by simp))
          (by omega)]
        have hbadr : ∃ x ∈ rest, 65535 < utf16Units x.value := by
          obtain ⟨x, hx, hxbad⟩ := hbad
          rcases List.mem_cons.mp hx with heq | hmem
          · exact absurd (heq ▸ hxbad) hbade
          · exact ⟨x, hmem, hxbad⟩
        rw [ih (fun x hx => hkeys x (by simp [hx]))
          (fun x hx => hscal x (by simp [hx])) hbadr]
  rw [hrec]

theorem utf16Units_replicate_bmp (n : Nat) :
    utf16Units (List.replicate n 120) = n := by
  induction n with
  | zero => rfl
  | succ m ih =>
    rw [List.replicate_succ]
    simp only [utf16Units, List.map_cons, List.sum_cons] at ih ⊢
    rw [ih]
    simp
    omega

/-- Witness for C4 at a concrete input: a single entry whose value has
65536 UTF-16 code units. -/
theorem encode_value_too_long_witness :
    encodeEntries 1 [⟨[97, 95, 98], List.replicate 65536 120, [97, 95, 98]⟩] =
      .error .ValueTooLong := by
  apply encode_value_too_long
  · decide
  · decide
  · intro e he
    rcases List.mem_singleton.mp he with rfl
    decide
  · intro e he
    rcases List.mem_singleton.mp he with rfl
    intro c hc
    rcases List.eq_of_mem_replicate hc with rfl
    decide
  · refine ⟨_, List.mem_singleton_self _, ?_⟩
    rw [utf16Units_replicate_bmp]
    omega

/-! ### C8: trailing bytes are rejected; success consumes everything -/

theorem parseRecords_ok_length (c : Nat) (data : List Nat)
    (es : List Entry) (r : List Nat)
    (h : parseRecords c data = .ok (es, r)) : es.length = c := by
  induction c generalizing data es r with
  | zero =>
    rw [parseRecords] at h
    cases h
    rfl
  | succ m ih =>
    rw [parseRecords] at h
    rcases hre : read_exact data 2 with e | ⟨klb, r1⟩ <;> simp only [hre] at h
    · exact Except.noConfusion h
    rcases hre2 : read_exact r1 (le16 klb) with e | ⟨kb, r2⟩ <;> simp only [hre2] at h
    · exact Except.noConfusion h
    rcases hdk : utf8Decode kb with _ | key <;> simp only [hdk] at h
    · exact Except.noConfusion h
    rcases hre3 : read_exact r2 2 with e | ⟨vlb, r3⟩ <;> simp only [hre3] at h
    · exact Except.noConfusion h
    rcases hre4 : read_exact r3 (le16 vlb * 2) with e | ⟨vb, r4⟩ <;>
      simp only [hre4] at h
    · exact Except.noConfusion h
    rcases hdv : utf16leDecode vb with _ | value <;> simp only [hdv] at h
    · exact Except.noConfusion h
    rcases hpr : parseRecords m r4 with e | ⟨es2, r5⟩ <;> simp only [hpr] at h
    · exact Except.noConfusion h
    cases h
    simpa using ih _ _ _ hpr

theorem parse_binary_ok_inv (data : List Nat) (v : Nat) (es : List Entry)
    (hok : parse_binary data = .ok (v, es)) :
    es.length = hdrCount data ∧
      parseRecords (hdrCount data) (data.drop 8) = .ok (es, []) := by
  rw [parse_binary] at hok
  by_cases h8 : 8 ≤ data.length
  · rw [read_exact, if_pos h8] at hok
    rcases hrec : parseRecords (hdrCount data) (data.drop 8) with e | ⟨es2, rest2⟩ <;>
      simp only [hrec] at hok
    · exact Except.noConfusion hok
    rcases rest2 with _ | ⟨b, bs⟩
    · simp only [List.isEmpty_nil, if_true] at hok
      cases hok
      exact ⟨parseRecords_ok_length _ _ _ _ hrec, rfl⟩
    · simp at hok
  · rw [read_exact, if_neg h8] at hok
    cases hok

/-- C8: the strict decoder fails with TrailingData whenever bytes remain
after reading exactly count records, and a successful decode returns
exactly count entries having consumed the whole input. -/
theorem parse_binary_trailing (data : List Nat) :
    (∀ es rest, 8 ≤ data.length →
        parseRecords (hdrCount data) (data.drop 8) = .ok (es, rest) →
        rest ≠ [] → parse_binary data = .error .TrailingData) ∧
    (∀ v es, parse_binary data = .ok (v, es) →
        es.length = hdrCount data ∧
        parseRecords (hdrCount data) (data.drop 8) = .ok (es, [])) := by
  constructor
  · intro es rest h8 hrec hne
    rw [parse_binary, read_exact, if_pos h8]
    simp only [hrec]
    rcases rest with _ | ⟨b, bs⟩
    · exact absurd rfl hne
    · rfl
  · intro v es hok
    exact parse_binary_ok_inv data v es hok

/-- Witness for C8 at a concrete input: a valid one-record file with one
extra byte appended fails with TrailingData. -/
theorem parse_binary_trailing_witness :
    parse_binary [1, 0, 0, 0, 1, 0, 0, 0, 3, 0, 97, 95, 98, 1, 0, 120, 0, 0] =
      .error .TrailingData :=
  (parse_binary_trailing _).1 [⟨[97, 95, 98], [120], [97, 95, 98]⟩] [0]
    (by decide) (by rfl) (by decide)

/-! ### C7: truncated inputs fail with TruncatedInput -/

theorem read_exact_ok_inv (data : List Nat) (sz : Nat) (a r : List Nat)
    (h : read_exact data sz = .ok (a, r)) :
    sz ≤ data.length ∧ a = data.take sz ∧ r = data.drop sz := by
  rw [read_exact] at h
  by_cases hle : sz ≤ data.length
  · rw [if_pos hle] at h
    cases h
    exact ⟨hle, rfl, rfl⟩
  · rw [if_neg hle] at h
    exact Except.noConfusion h

theorem read_exact_take_ge (data : List Nat) (k sz : Nat)
    (hsz : sz ≤ k) (hk : k ≤ data.length) :
    read_exact (data.take k) sz =
      .ok (data.take sz, (data.drop sz).take (k - sz)) := by
  rw [read_exact, if_pos (by simp; omega)]
  rw [List.take_take, Nat.min_eq_left hsz, List.drop_take]

theorem read_exact_take_lt (data : List Nat) (k sz : Nat)
    (hk : k ≤ data.length) (hsz : k < sz) :
    read_exact (data.take k) sz = .error .TruncatedInput := by
  rw [read_exact, if_neg (by simp; omega)]

theorem parseRecords_prefix (c : Nat) (data : List Nat) (es : List Entry)
    (h : parseRecords c data = .ok (es, [])) :
    ∀ k, k < data.length → parseRecords c (data.take k) = .error .TruncatedInput := by
  induction c generalizing data es with
  | zero =>
    rw [parseRecords] at h
    cases h
    intro k hk
    simp at hk
  | succ m ih =>
    rw [parseRecords] at h
    rcases hre : read_exact data 2 with e | ⟨klb, r1⟩ <;> simp only [hre] at h
    · exact Except.noConfusion h
    rcases hre2 : read_exact r1 (le16 klb) with e | ⟨kb, r2⟩ <;> simp only [hre2] at h
    · exact Except.noConfusion h
    rcases hdk : utf8Decode kb with _ | key <;> simp only [hdk] at h
    · exact Except.noConfusion h
    rcases hre3 : read_exact r2 2 with e | ⟨vlb, r3⟩ <;> simp only [hre3] at h
    · exact Except.noConfusion h
    rcases hre4 : read_exact r3 (le16 vlb * 2) with e | ⟨vb, r4⟩ <;>
      simp only [hre4] at h
    · exact Except.noConfusion h
    rcases hdv : utf16leDecode vb with _ | value <;> simp only [hdv] at h
    · exact Except.noConfusion h
    rcases hpr : parseRecords m r4 with e | ⟨es2, r5⟩ <;> simp only [hpr] at h
    · exact Except.noConfusion h
    have hr5 : r5 = [] := by
      cases h
      rfl
    subst hr5
    obtain ⟨h2, hklb, hr1⟩ := read_exact_ok_inv _ _ _ _ hre
    obtain ⟨hK, hkb, hr2⟩ := read_exact_ok_inv _ _ _ _ hre2
    obtain ⟨h2b, hvlb, hr3⟩ := read_exact_ok_inv _ _ _ _ hre3
    obtain ⟨hV, hvb, hr4⟩ := read_exact_ok_inv _ _ _ _ hre4
    have hlen1 : r1.length = data.length - 2 := by rw [hr1]; simp
    have hlen2 : r2.length = r1.length - le16 klb := by rw [hr2]; simp
    have hlen3 : r3.length = r2.length - 2 := by rw [hr3]; simp
    have hlen4 : r4.length = r3.length - le16 vlb * 2 := by rw [hr4]; simp
    intro k hk
    rw [parseRecords]
    by_cases hk2 : k < 2
    · rw [read_exact_take_lt data k 2 (by omega) hk2]
    have e1 : read_exact (data.take k) 2 = .ok (klb, r1.take (k - 2)) := by
      rw [read_exact_take_ge data k 2 (by omega) (by omega), ← hklb, ← hr1]
    simp only [e1]
    by_cases hkK : k - 2 < le16 klb
    · have e2 : read_exact (r1.take (k - 2)) (le16 klb) = .error .TruncatedInput :=
        read_exact_take_lt r1 (k - 2) (le16 klb) (by omega) hkK
      simp [e2]
    have e2 : read_exact (r1.take (k - 2)) (le16 klb) =
        .ok (kb, r2.take (k - 2 - le16 klb)) := by
      rw [read_exact_take_ge r1 (k - 2) (le16 klb) (by omega) (by omega),
        ← hkb, ← hr2]
    simp only [e2, hdk]
    by_cases hk2b : k - 2 - le16 klb < 2
    · have e3 : read_exact (r2.take (k - 2 - le16 klb)) 2 = .error .TruncatedInput :=
        read_exact_take_lt r2 (k - 2 - le16 klb) 2 (by omega) hk2b
      simp [e3]
    have e3 : read_exact (r2.take (k - 2 - le16 klb)) 2 =
        .ok (vlb, r3.take (k - 2 - le16 klb - 2)) := by
      rw [read_exact_take_ge r2 (k - 2 - le16 klb) 2 (by omega) (by omega),
        ← hvlb, ← hr3]
    simp only [e3]
    by_cases hkV : k - 2 - le16 klb - 2 < le16 vlb * 2
    · have e4 : read_exact (r3.take (k - 2 - le16 klb - 2)) (le16 vlb * 2) =
          .error .TruncatedInput :=
        read_exact_take_lt r3 (k - 2 - le16 klb - 2) (le16 vlb * 2)
          (by omega) hkV
      simp [e4]
    have e4 : read_exact (r3.take (k - 2 - le16 klb - 2)) (le16 vlb * 2) =
        .ok (vb, r4.take (k - 2 - le16 klb - 2 - le16 vlb * 2)) := by
      rw [read_exact_take_ge r3 (k - 2 - le16 klb - 2) (le16 vlb * 2)
        (by omega) (by omega), ← hvb, ← hr4]
    simp only [e4, hdv]
    have e5 := ih r4 es2 hpr (k - 2 - le16 klb - 2 - le16 vlb * 2) (by omega)
    simp [e5]

/-- The truncation condition of the claim made precise: walking the
record frames from the front, some declared length field - the 2-byte
key length or unit count itself, the declared key byte count, or the
declared value byte count - requires more bytes than remain, at the
point decoding reaches it (a key or value that fails to decode stops the
walk first, as it stops the decoder with MalformedKey or MalformedValue).
A count larger than the number of complete records present makes this
true at the first missing record. -/
def recordsNeedMore : Nat → List Nat → Bool
  | 0, _ => false
  | c + 1, d =>
    if d.length < 2 then true
    else if (d.drop 2).length < le16 (d.take 2) then true
    else
      match utf8Decode ((d.drop 2).take (le16 (d.take 2))) with
      | none => false
      | some _ =>
        if ((d.drop 2).drop (le16 (d.take 2))).length < 2 then true
        else if (((d.drop 2).drop (le16 (d.take 2))).drop 2).length <
            le16 (((d.drop 2).drop (le16 (d.take 2))).take 2) * 2 then true
        else
          match utf16leDecode ((((d.drop 2).drop (le16 (d.take 2))).drop 2).take
              (le16 (((d.drop 2).drop (le16 (d.take 2))).take 2) * 2)) with
          | none => false
          | some _ =>
            recordsNeedMore c ((((d.drop 2).drop (le16 (d.take 2))).drop 2).drop
              (le16 (((d.drop 2).drop (le16 (d.take 2))).take 2) * 2))

theorem parseRecords_truncated_iff (c : Nat) (d : List Nat) :
    parseRecords c d = .error .TruncatedInput ↔ recordsNeedMore c d = true := by
  induction c generalizing d with
  | zero =>
    rw [parseRecords, recordsNeedMore]
    simp
  | succ m ih =>
    rw [parseRecords, recordsNeedMore]
    by_cases h2 : d.length < 2
    · rw [read_exact_short d 2 h2, if_pos h2]
      simp
    · have hre : read_exact d 2 = .ok (d.take 2, d.drop 2) := by
        rw [read_exact, if_pos (by omega)]
      simp only [hre, if_neg h2]
      by_cases hK : (d.drop 2).length < le16 (d.take 2)
      · rw [read_exact_short _ _ hK, if_pos hK]
        simp
      · have hre2 : read_exact (d.drop 2) (le16 (d.take 2)) =
            .ok ((d.drop 2).take (le16 (d.take 2)),
              (d.drop 2).drop (le16 (d.take 2))) := by
          rw [read_exact, if_pos (by omega)]
        simp only [hre2, if_neg hK]
        rcases hdk : utf8Decode ((d.drop 2).take (le16 (d.take 2))) with _ | key <;>
          simp only [hdk]
        · simp
        by_cases h2b : ((d.drop 2).drop (le16 (d.take 2))).length < 2
        · rw [read_exact_short _ _ h2b, if_pos h2b]
          simp
        · have hre3 : read_exact ((d.drop 2).drop (le16 (d.take 2))) 2 =
              .ok (((d.drop 2).drop (le16 (d.take 2))).take 2,
                ((d.drop 2).drop (le16 (d.take 2))).drop 2) := by
            rw [read_exact, if_pos (by omega)]
          simp only [hre3, if_neg h2b]
          by_cases hV : (((d.drop 2).drop (le16 (d.take 2))).drop 2).length <
              le16 (((d.drop 2).drop (le16 (d.take 2))).take 2) * 2
          · rw [read_exact_short _ _ hV, if_pos hV]
            simp
          · have hre4 : read_exact (((d.drop 2).drop (le16 (d.take 2))).drop 2)
                (le16 (((d.drop 2).drop (le16 (d.take 2))).take 2) * 2) =
                .ok ((((d.drop 2).drop (le16 (d.take 2))).drop 2).take
                    (le16 (((d.drop 2).drop (le16 (d.take 2))).take 2) * 2),
                  (((d.drop 2).drop (le16 (d.take 2))).drop 2).drop
                    (le16 (((d.drop 2).drop (le16 (d.take 2))).take 2) * 2)) := by
              rw [read_exact, if_pos (by omega)]
            simp only [hre4, if_neg hV]
            rcases hdv : utf16leDecode ((((d.drop 2).drop (le16 (d.take 2))).drop
                2).take (le16 (((d.drop 2).drop (le16 (d.take 2))).take 2) * 2))
              with _ | value <;> simp only [hdv]
            · simp
            rcases hpr : parseRecords m ((((d.drop 2).drop (le16 (d.take
                2))).drop 2).drop (le16 (((d.drop 2).drop (le16 (d.take
                2))).take 2) * 2)) with e | ⟨es, r5⟩ <;> simp only [hpr]
            · constructor
              · intro heq
                have he : e = ParseError.TruncatedInput := by
                  cases heq
                  rfl
                exact (ih _).mp (he ▸ hpr)
              · intro hrnm
                have htr := (ih _).mpr hrnm
                rw [hpr] at htr
                cases htr
                rfl
            · constructor
              · intro heq
                exact Except.noConfusion heq
              · intro hrnm
                have htr := (ih _).mpr hrnm
                rw [hpr] at htr
                exact Except.noConfusion htr

/-- C7: the strict decoder detects truncation, on every input.  The
decoder fails with TruncatedInput exactly when the input is too short
for the 8-byte header, or some declared length field reached by the
record walk - a key length or unit count field, the declared key byte
count, or the declared value byte count (in particular when the count
field promises more complete records than the input holds) - requires
more bytes than remain; and every strict prefix of an input the decoder
accepts fails with TruncatedInput, so no truncated input yields a
partial entry sequence or a silent short read. -/
theorem parse_binary_truncation (data : List Nat) :
    (parse_binary data = .error .TruncatedInput ↔
      (data.length < 8 ∨
        recordsNeedMore (hdrCount data) (data.drop 8) = true)) ∧
    (∀ r, parse_binary data = .ok r → ∀ k, k < data.length →
        parse_binary (data.take k) = .error .TruncatedInput) := by
  constructor
  · by_cases h8 : data.length < 8
    · rw [parse_binary, read_exact, if_neg (by omega)]
      simp [h8]
    · have hre : read_exact data 8 = .ok (data.take 8, data.drop 8) := by
        rw [read_exact, if_pos (by omega)]
      rw [parse_binary]
      simp only [hre]
      rcases hpr : parseRecords (hdrCount data) (data.drop 8) with e | ⟨es, rest2⟩ <;>
        simp only [hpr]
      · constructor
        · intro heq
          have he : e = ParseError.TruncatedInput := by
            cases heq
            rfl
          exact Or.inr ((parseRecords_truncated_iff _ _).mp (he ▸ hpr))
        · rintro (hlt | hrnm)
          · omega
          · have htr := (parseRecords_truncated_iff _ _).mpr hrnm
            rw [hpr] at htr
            cases htr
            rfl
      · constructor
        · intro heq
          by_cases hemp : rest2.isEmpty
          · rw [if_pos hemp] at heq
            exact Except.noConfusion heq
          · rw [if_neg hemp] at heq
            cases heq
        · rintro (hlt | hrnm)
          · omega
          · have htr := (parseRecords_truncated_iff _ _).mpr hrnm
            rw [hpr] at htr
            exact Except.noConfusion htr
  · rintro ⟨v, es⟩ hok k hk
    obtain ⟨hlen, hrec⟩ := parse_binary_ok_inv data v es hok
    have h8 : 8 ≤ data.length := by
      by_contra hcon
      rw [parse_binary, read_exact, if_neg (by omega)] at hok
      exact Except.noConfusion hok
    have hcount : hdrCount (data.take k) = hdrCount data ∨ k < 8 := by
      by_cases hk8 : k < 8
      · exact Or.inr hk8
      · left
        rw [hdrCount, hdrCount, List.drop_take, List.take_take]
        congr 1
        have hmin : min 4 (k - 4) = 4 := by omega
        rw [hmin]
    rw [parse_binary]
    by_cases hk8 : k < 8
    · rw [read_exact_take_lt data k 8 (by omega) hk8]
    rcases hcount with hceq | hclt
    · rw [read_exact_take_ge data k 8 (by omega) (by omega), hceq]
      have := parseRecords_prefix (hdrCount data) (data.drop 8) es hrec
        (k - 8) (by simp; omega)
      simp [this]
    · omega

/-- Witness for C7 at a concrete input: a file declaring one record and a
key length of 2 with a single key byte left (0xFF, which no completion
could ever make a valid record) fails with TruncatedInput. -/
theorem parse_binary_truncation_witness :
    parse_binary [1, 0, 0, 0, 1, 0, 0, 0, 2, 0, 255] =
      .error .TruncatedInput :=
  (parse_binary_truncation [1, 0, 0, 0, 1, 0, 0, 0, 2, 0, 255]).1.mpr
    (Or.inr (by decide))

/-! ### The heuristic record scanner (tools/convert_common_texts_to_tsv.py)

The printability predicate of Python str.isprintable is backed by the
Unicode character database, so it enters the embedding as a parameter
`printable : Nat → Bool`; `asciiPrintable` below agrees with Python on the
ASCII range, which is all the concrete inputs of this file use. -/

/-- The ALLOWED set of convert_common_texts_to_tsv.py: ASCII letters,
digits and underscore. -/
def allowedKeyByte (c : Nat) : Bool :=
  decide ((65 ≤ c ∧ c ≤ 90) ∨ (97 ≤ c ∧ c ≤ 122) ∨ (48 ≤ c ∧ c ≤ 57) ∨ c = 95)

/-- is_key_bytes from tools/convert_common_texts_to_tsv.py: non-empty,
ASCII-decodable, contains an underscore, and all bytes in ALLOWED. -/
def is_key_bytes (b : List Nat) : Bool :=
  if b.isEmpty then false
  else if ¬ b.all (fun c => decide (c < 128)) then false
  else if ¬ b.contains 95 then false
  else b.all allowedKeyByte

/-- is_utf16_text from tools/convert_common_texts_to_tsv.py: even byte
count, valid strict UTF-16LE, non-empty, and at least 90 percent of the
decoded characters printable and not vertical-tab or form-feed.  The
Python comparison printable / len(s) >= 0.9 is on floats; it is rendered
here as the exact rational comparison, which agrees at every ratio the
scanner distinguishes. -/
def is_utf16_text (printable : Nat → Bool) (b : List Nat) : Bool :=
  if b.length % 2 ≠ 0 then false
  else
    match utf16leDecode b with
    | none => false
    | some s =>
      if s.isEmpty then false
      else decide (9 * s.length ≤
        10 * (s.filter (fun c => printable c && !(c == 0xB) && !(c == 0xC))).length)

/-- Byte access data[i], used only in bounds. -/
def byteAt (data : List Nat) (i : Nat) : Nat := data.getD i 0

/-- One candidate-record test of the scan loop in scan_records: the length
checks, key predicate and value predicate in source order.  On acceptance
returns the key, the decoded value and the full record byte length. -/
def tryRecord (printable : Nat → Bool) (data : List Nat) (pos : Nat) :
    Option (List Nat × List Nat × Nat) :=
  let n := data.length
  let L := byteAt data pos + 256 * byteAt data (pos + 1)
  if 0 < L ∧ L < 200 ∧ pos + 2 + L + 2 ≤ n then
    let keyb := (data.drop (pos + 2)).take L
    if is_key_bytes keyb then
      let S := byteAt data (pos + 2 + L) + 256 * byteAt data (pos + 2 + L + 1)
      if 0 < S ∧ S < 4000 ∧ pos + 2 + L + 2 + S * 2 ≤ n then
        let valb := (data.drop (pos + 2 + L + 2)).take (S * 2)
        if is_utf16_text printable valb then
          some (keyb, (utf16leDecode valb).getD [], 2 + L + 2 + S * 2)
        else none
      else none
    else none
  else none

/-- The next scan position: past the record on acceptance, one byte on
rejection. -/
def scanNext (printable : Nat → Bool) (data : List Nat) (pos : Nat) : Nat :=
  match tryRecord printable data pos with
  | some (_, _, len) => pos + len
  | none => pos + 1

/-- The while loop of scan_records, with explicit fuel: the loop runs while
pos + 4 < len(data), emitting accepted records and advancing by scanNext.
Each iteration advances the position by at least one byte, so fuel
len(data) makes the fuel never run out (proved below). -/
def scanAux (printable : Nat → Bool) (data : List Nat) :
    Nat → Nat → List (List Nat × List Nat)
  | 0, _ => []
  | fuel + 1, pos =>
    if pos + 4 < data.length then
      match tryRecord printable data pos with
      | some (key, val, len) =>
        (key, val) :: scanAux printable data fuel (pos + len)
      | none => scanAux printable data fuel (pos + 1)
    else []

/-- scan_records from tools/convert_common_texts_to_tsv.py. -/
def scan_records (printable : Nat → Bool) (data : List Nat) :
    List (List Nat × List Nat) :=
  scanAux printable data data.length 0

/-- The first-write-wins deduplication of main in
tools/convert_common_texts_to_tsv.py (if k not in dedup: dedup[k] = v),
with the set of already-seen keys explicit. -/
def dedupAux (seen : List (List Nat)) :
    List (List Nat × List Nat) → List (List Nat × List Nat)
  | [] => []
  | (k, v) :: rest =>
    if k ∈ seen then dedupAux seen rest
    else (k, v) :: dedupAux (k :: seen) rest

/-- The dedup OrderedDict of main, as an association list in first-seen
key order. -/
def dedupRecords (recs : List (List Nat × List Nat)) :
    List (List Nat × List Nat) :=
  dedupAux [] recs

/-- Dictionary lookup dedup[k]: the association list has unique keys, so
the first match is the value. -/
def dictLookup (m : List (List Nat × List Nat)) (k : List Nat) :
    Option (List Nat) :=
  (m.find? (fun kv => kv.1 == k)).map (·.2)

/-- Python string comparison on the scanner keys (code-point lexicographic
less-or-equal), as sorted() uses. -/
def lexLe : List Nat → List Nat → Bool
  | [], _ => true
  | _ :: _, [] => false
  | a :: as, b :: bs => if a < b then true else if b < a then false else lexLe as bs

/-- The rows written by main of tools/convert_common_texts_to_tsv.py:
one per key of the dedup dictionary in sorted key order, with the dedup
value (the constant flags and empty translation columns omitted). -/
def mainRows (printable : Nat → Bool) (data : List Nat) :
    List (List Nat × List Nat) :=
  (List.insertionSort (fun a b => lexLe a b = true)
      ((dedupRecords (scan_records printable data)).map Prod.fst)).map
    (fun k =>
      (k, (dictLookup (dedupRecords (scan_records printable data)) k).getD []))

/-- Printability on the ASCII range: agrees with Python str.isprintable
for code points below 128. -/
def asciiPrintable (c : Nat) : Bool := decide (0x20 ≤ c ∧ c ≤ 0x7E)

/-! ### C10: the scan loop advances and terminates -/

theorem tryRecord_some_len (printable : Nat → Bool) (data : List Nat)
    (pos : Nat) (k v : List Nat) (len : Nat)
    (h : tryRecord printable data pos = some (k, v, len)) : 0 < len := by
  simp only [tryRecord] at h
  split at h
  · split at h
    · split at h
      · split at h
        · cases h
          omega
        · exact Option.noConfusion h
      · exact Option.noConfusion h
    · exact Option.noConfusion h
  · exact Option.noConfusion h

theorem scanNext_gt (printable : Nat → Bool) (data : List Nat) (pos : Nat) :
    pos < scanNext printable data pos := by
  rw [scanNext]
  rcases htr : tryRecord printable data pos with _ | ⟨k, v, len⟩
  · simp
  · have := tryRecord_some_len printable data pos k v len htr
    simp
    omega

theorem scanAux_fuel (printable : Nat → Bool) (data : List Nat) :
    ∀ f1 f2 pos, data.length - pos ≤ f1 → data.length - pos ≤ f2 →
      scanAux printable data f1 pos = scanAux printable data f2 pos := by
  intro f1
  induction f1 with
  | zero =>
    intro f2 pos h1 h2
    have hguard : ¬ pos + 4 < data.length := by omega
    cases f2 with
    | zero => rfl
    | succ g =>
      show ([] : List (List Nat × List Nat)) = _
      rw [scanAux, if_neg hguard]
  | succ f ih =>
    intro f2 pos h1 h2
    cases f2 with
    | zero =>
      have hguard : ¬ pos + 4 < data.length := by omega
      show _ = ([] : List (List Nat × List Nat))
      rw [scanAux, if_neg hguard]
    | succ g =>
      rw [scanAux, scanAux]
      by_cases hguard : pos + 4 < data.length
      · rw [if_pos hguard, if_pos hguard]
        rcases htr : tryRecord printable data pos with _ | ⟨k, v, len⟩
        · simp only [htr]
          exact ih g (pos + 1) (by omega) (by omega)
        · simp only [htr]
          have hlen := tryRecord_some_len printable data pos k v len htr
          rw [ih g (pos + len) (by omega) (by omega)]
      · rw [if_neg hguard, if_neg hguard]

/-- C10: the scan loop of scan_records terminates on every input.  The
position strictly increases at every step (by the full accepted record
length on acceptance, by exactly one byte on rejection, as scanNext is
defined), so from position pos at most length(data) - pos further
iterations happen: giving the loop that much fuel already computes its
final value, and scan_records runs it with fuel length(data) from
position 0. -/
theorem scanner_terminates (printable : Nat → Bool) (data : List Nat) :
    (∀ pos, pos < scanNext printable data pos) ∧
    (∀ fuel pos, data.length - pos ≤ fuel →
        scanAux printable data fuel pos =
          scanAux printable data (data.length - pos) pos) ∧
    scan_records printable data = scanAux printable data (data.length - 0) 0 := by
  refine ⟨scanNext_gt printable data, ?_, ?_⟩
  · intro fuel pos hfuel
    exact scanAux_fuel printable data fuel (data.length - pos) pos hfuel le_rfl
  · rw [scan_records, Nat.sub_zero]

/-- Witness for C10 at a concrete input: fuel 20 and the minimal
sufficient fuel compute the same scan of a 9-byte record. -/
theorem scanner_terminates_witness :
    scanAux asciiPrintable [3, 0, 97, 95, 97, 1, 0, 120, 0] 20 0 =
      scanAux asciiPrintable [3, 0, 97, 95, 97, 1, 0, 120, 0]
        (([3, 0, 97, 95, 97, 1, 0, 120, 0] : List Nat).length - 0) 0 :=
  (scanner_terminates asciiPrintable _).2.1 20 0 (by decide)

/-! ### C5: dedup keeps the first occurrence; rows come out sorted by key -/

theorem dedupAux_mem_find (recs : List (List Nat × List Nat))
    (seen : List (List Nat)) (k v : List Nat)
    (h : (k, v) ∈ dedupAux seen recs) :
    k ∉ seen ∧ recs.find? (fun kv => kv.1 == k) = some (k, v) := by
  induction recs generalizing seen with
  | nil => simp [dedupAux] at h
  | cons kv0 rest ih =>
    obtain ⟨k0, v0⟩ := kv0
    rw [dedupAux] at h
    by_cases hk0 : k0 ∈ seen
    · rw [if_pos hk0] at h
      obtain ⟨hns, hf⟩ := ih seen h
      have hne : k ≠ k0 := fun he => hns (he ▸ hk0)
      refine ⟨hns, ?_⟩
      rw [List.find?_cons_of_neg _ (by simp [hne.symm]), hf]
    · rw [if_neg hk0] at h
      rcases List.mem_cons.mp h with he | hm
      · cases he
        exact ⟨hk0, by simp⟩
      · obtain ⟨hns, hf⟩ := ih (k0 :: seen) hm
        have hne : k ≠ k0 := fun he => hns (by simp [he])
        refine ⟨fun hs => hns (by simp [hs]), ?_⟩
        rw [List.find?_cons_of_neg _ (by simp [hne.symm]), hf]

theorem dedupAux_keys_mem (recs : List (List Nat × List Nat))
    (seen : List (List Nat)) (k : List Nat) :
    k ∈ (dedupAux seen recs).map Prod.fst ↔
      (k ∈ recs.map Prod.fst ∧ k ∉ seen) := by
  induction recs generalizing seen with
  | nil => simp [dedupAux]
  | cons kv0 rest ih =>
    obtain ⟨k0, v0⟩ := kv0
    rw [dedupAux]
    by_cases hk0 : k0 ∈ seen
    · rw [if_pos hk0]
      rw [ih seen]
      simp only [List.map_cons, List.mem_cons]
      constructor
      · rintro ⟨hm, hns⟩
        exact ⟨Or.inr hm, hns⟩
      · rintro ⟨hm | hm, hns⟩
        · exact absurd (hm ▸ hk0) hns
        · exact ⟨hm, hns⟩
    · rw [if_neg hk0]
      simp only [List.map_cons, List.mem_cons]
      rw [ih (k0 :: seen)]
      constructor
      · rintro (he | ⟨hm, hns⟩)
        · exact ⟨Or.inl he, he ▸ hk0⟩
        · exact ⟨Or.inr hm, fun hs => hns (by simp [hs])⟩
      · rintro ⟨he | hm, hns⟩
        · exact Or.inl he
        · by_cases hek : k = k0
          · exact Or.inl hek
          · exact Or.inr ⟨hm, by simp [hek, hns]⟩

theorem dedupAux_keys_nodup (recs : List (List Nat × List Nat))
    (seen : List (List Nat)) :
    ((dedupAux seen recs).map Prod.fst).Nodup := by
  induction recs generalizing seen with
  | nil => simp [dedupAux]
  | cons kv0 rest ih =>
    obtain ⟨k0, v0⟩ := kv0
    rw [dedupAux]
    by_cases hk0 : k0 ∈ seen
    · rw [if_pos hk0]
      exact ih seen
    · rw [if_neg hk0]
      simp only [List.map_cons, List.nodup_cons]
      refine ⟨fun hm => ?_, ih (k0 :: seen)⟩
      exact ((dedupAux_keys_mem rest (k0 :: seen) k0).mp hm).2 (by simp)

theorem find?_key_of_mem_nodup (m : List (List Nat × List Nat))
    (k v : List Nat) (hn : (m.map Prod.fst).Nodup) (hm : (k, v) ∈ m) :
    m.find? (fun kv => kv.1 == k) = some (k, v) := by
  induction m with
  | nil => cases hm
  | cons kv0 rest ih =>
    obtain ⟨k0, v0⟩ := kv0
    simp only [List.map_cons, List.nodup_cons] at hn
    obtain ⟨hk0, hnr⟩ := hn
    rcases List.mem_cons.mp hm with he | hmr
    · cases he
      simp
    · have hne : k ≠ k0 := by
        intro he
        subst he
        exact hk0 (by
          have : k ∈ rest.map Prod.fst := List.mem_map.mpr ⟨(k, v), hmr, rfl⟩
          exact this)
      rw [List.find?_cons_of_neg _ (by simp [hne.symm]), ih hnr hmr]

theorem lexLe_total (a : List Nat) : ∀ b, lexLe a b = true ∨ lexLe b a = true := by
  induction a with
  | nil => intro b; left; rfl
  | cons x xs ih =>
    intro b
    cases b with
    | nil => right; rfl
    | cons y ys =>
      rw [lexLe, lexLe]
      by_cases hxy : x < y
      · left; rw [if_pos hxy]
      · by_cases hyx : y < x
        · right
          rw [if_pos hyx]
        · rcases ih ys with h | h
          · left
            rw [if_neg hxy, if_neg hyx, h]
          · right
            rw [if_neg hyx, if_neg hxy, h]

theorem lexLe_trans : ∀ a b c : List Nat,
    lexLe a b = true → lexLe b c = true → lexLe a c = true
  | [], _, _, _, _ => rfl
  | _ :: _, [], _, h1, _ => by rw [lexLe] at h1; exact Bool.noConfusion h1
  | _ :: _, _ :: _, [], _, h2 => by rw [lexLe] at h2; exact Bool.noConfusion h2
  | a :: as, b :: bs, c :: cs, h1, h2 => by
    rw [lexLe] at h1 h2 ⊢
    by_cases hab : a < b <;> by_cases hbc : b < c
    · rw [if_pos (by omega)]
    · rw [if_neg hbc] at h2
      by_cases hcb : c < b
      · rw [if_pos hcb] at h2
        exact Bool.noConfusion h2
      · rw [if_pos (by omega)]
    · rw [if_neg hab] at h1
      by_cases hba : b < a
      · rw [if_pos hba] at h1
        exact Bool.noConfusion h1
      · rw [if_neg hba] at h1
        rw [if_pos (by omega)]
    · rw [if_neg hab] at h1
      rw [if_neg hbc] at h2
      by_cases hba : b < a
      · rw [if_pos hba] at h1
        exact Bool.noConfusion h1
      by_cases hcb : c < b
      · rw [if_pos hcb] at h2
        exact Bool.noConfusion h2
      rw [if_neg hba] at h1
      rw [if_neg hcb] at h2
      rw [if_neg (by omega), if_neg (by omega)]
      exact lexLe_trans as bs cs h1 h2

instance : IsTotal (List Nat) (fun a b => lexLe a b = true) :=
  ⟨lexLe_total⟩

instance : IsTrans (List Nat) (fun a b => lexLe a b = true) :=
  ⟨fun a b c => lexLe_trans a b c⟩

/-- C5 amended: for every input and printability predicate, the rows the
tool emits keep for each key the value of the first accepted occurrence
(first write wins), but list the keys in sorted (code-point lexicographic)
order, duplicate-free, covering exactly the accepted keys - not in
first-seen order of acceptance. -/
theorem scanner_rows_sorted_first_wins (printable : Nat → Bool)
    (data : List Nat) :
    ((mainRows printable data).map Prod.fst).Sorted
        (fun a b => lexLe a b = true) ∧
    ((mainRows printable data).map Prod.fst).Nodup ∧
    (∀ k, k ∈ (mainRows printable data).map Prod.fst ↔
        k ∈ (scan_records printable data).map Prod.fst) ∧
    (∀ k v, (k, v) ∈ mainRows printable data →
        (scan_records printable data).find? (fun kv => kv.1 == k) =
          some (k, v)) := by
  have hmapfst : (mainRows printable data).map Prod.fst =
      List.insertionSort (fun a b => lexLe a b = true)
        ((dedupRecords (scan_records printable data)).map Prod.fst) := by
    rw [mainRows, List.map_map]
    exact List.map_id _
  refine ⟨?_, ?_, ?_, ?_⟩
  · rw [hmapfst]
    exact List.sorted_insertionSort _ _
  · rw [hmapfst]
    exact (List.perm_insertionSort _ _).symm.nodup
      (dedupAux_keys_nodup (scan_records printable data) [])
  · intro k
    rw [hmapfst, List.mem_insertionSort _, dedupRecords,
      dedupAux_keys_mem (scan_records printable data) [] k]
    simp
  · intro k v hm
    rw [mainRows] at hm
    obtain ⟨k1, hk1, hkv⟩ := List.mem_map.mp hm
    have hkk : k1 = k := congrArg Prod.fst hkv
    subst hkk
    have hvv : (dictLookup (dedupRecords (scan_records printable data)) k1).getD
        [] = v := congrArg Prod.snd hkv
    have hkmem : k1 ∈ (dedupRecords (scan_records printable data)).map
        Prod.fst :=
      (List.mem_insertionSort _).mp hk1
    obtain ⟨kv0, hv0mem, hfst⟩ := List.mem_map.mp hkmem
    obtain ⟨k2, v0⟩ := kv0
    have hk2 : k2 = k1 := hfst
    subst hk2
    have hfind : (dedupRecords (scan_records printable data)).find?
        (fun kv => kv.1 == k2) = some (k2, v0) :=
      find?_key_of_mem_nodup _ k2 v0
        (dedupAux_keys_nodup (scan_records printable data) []) hv0mem
    have hv : v = v0 := by
      rw [← hvv, dictLookup, hfind]
      rfl
    subst hv
    exact (dedupAux_mem_find (scan_records printable data) [] k2 v hv0mem).2

/-- C5 counterexample: on an input holding the records b_b then a_a (both
accepted in that order), the emitted rows list a_a first - sorted key
order, not first-seen acceptance order - refuting the ordering half of the
claim as stated. -/
theorem scanner_order_counterexample :
    (scan_records asciiPrintable
        [3, 0, 98, 95, 98, 1, 0, 120, 0, 3, 0, 97, 95, 97, 1, 0, 120, 0]).map
        Prod.fst = [[98, 95, 98], [97, 95, 97]] ∧
    (mainRows asciiPrintable
        [3, 0, 98, 95, 98, 1, 0, 120, 0, 3, 0, 97, 95, 97, 1, 0, 120, 0]).map
        Prod.fst = [[97, 95, 97], [98, 95, 98]] ∧
    (mainRows asciiPrintable
        [3, 0, 98, 95, 98, 1, 0, 120, 0, 3, 0, 97, 95, 97, 1, 0, 120, 0]).map
        Prod.fst ≠
      (scan_records asciiPrintable
        [3, 0, 98, 95, 98, 1, 0, 120, 0, 3, 0, 97, 95, 97, 1, 0, 120, 0]).map
        Prod.fst := by
  refine ⟨by decide, by decide, by decide⟩

/-! ### The merge engine and translation store (tools/pack_common_texts.py)

Python str is modelled as Lean String here; the merge loop only reads the
key and value text of each entry. -/

/-- One entry as the merge loop of main in tools/pack_common_texts.py uses
it: the decoded key and value strings (the retained key bytes play no role
in merging). -/
structure PEntry where
  key : String
  value : String
deriving DecidableEq, Repr

/-- The specifier characters of PLACEHOLDER_PATTERN, the regular
expression percent followed by percent or one of s d i f u x. -/
def placeholderChars : List Char := ['%', 's', 'd', 'i', 'f', 'u', 'x']

/-- PLACEHOLDER_PATTERN.findall: scan left to right; at a percent followed
by a specifier emit the two-character token and continue after it,
otherwise advance one character. -/
def findPlaceholders : List Char → List (List Char)
  | [] => []
  | [_] => []
  | a :: b :: rest =>
    if a = '%' ∧ b ∈ placeholderChars then
      ['%', b] :: findPlaceholders rest
    else findPlaceholders (b :: rest)

/-- Equality of the two Counter multisets, rendered by counts: every token
occurring in either list occurs equally often in both. -/
def counterEq (a b : List (List Char)) : Bool :=
  a.all (fun t => a.count t == b.count t) &&
    b.all (fun t => a.count t == b.count t)

/-- str.count of the newline character. -/
def countNl (s : String) : Nat := s.toList.count '\n'

/-- Dictionary lookup in insertion order with the last assignment winning,
as a Python dict built by repeated mapping[key] = value behaves. -/
def dictGet (m : List (String × String × String)) (k : String) :
    Option (String × String) :=
  m.foldl (fun acc kv => if kv.1 = k then some kv.2 else acc) none

/-- The merge failure of main in tools/pack_common_texts.py under
strict placeholders: the sorted list of offending keys is reported and
exit code 1 returned before any output file is created. -/
inductive MergeError where
  | PlaceholderMismatch (keys : List String)
deriving DecidableEq, Repr

/-- The report counters printed by main. -/
structure MergeReport where
  missing_in_table : Nat
  replaced : Nat
  skipped_empty : Nat
deriving DecidableEq, Repr

/-- The per-entry merge loop of main in tools/pack_common_texts.py,
returning (new values, missing count, replaced count, skipped-empty count,
placeholder error keys in append order). -/
def mergeLoop (mapping : List (String × String × String))
    (allowEmpty strict : Bool) :
    List PEntry → List String × Nat × Nat × Nat × List String
  | [] => ([], 0, 0, 0, [])
  | e :: rest =>
    let r := mergeLoop mapping allowEmpty strict rest
    match dictGet mapping e.key with
    | none => (e.value :: r.1, r.2.1 + 1, r.2.2.1, r.2.2.2.1, r.2.2.2.2)
    | some (src, tr) =>
      if tr = "" then
        if allowEmpty then ("" :: r.1, r.2.1, r.2.2.1 + 1, r.2.2.2.1, r.2.2.2.2)
        else (e.value :: r.1, r.2.1, r.2.2.1, r.2.2.2.1 + 1, r.2.2.2.2)
      else
        (tr :: r.1, r.2.1, r.2.2.1 + 1, r.2.2.2.1,
          (if strict then
            (if counterEq (findPlaceholders src.toList)
                (findPlaceholders tr.toList) then [] else [e.key]) ++
            (if countNl src = countNl tr then [] else [e.key])
          else []) ++ r.2.2.2.2)

/-- Python string comparison (code-point lexicographic) on Char lists. -/
def lexLeC : List Char → List Char → Bool
  | [], _ => true
  | _ :: _, [] => false
  | a :: as, b :: bs => if a < b then true else if b < a then false else lexLeC as bs

/-- sorted(set(keys)) of main: the distinct offending keys in sorted
order. -/
def sortedUnique (xs : List String) : List String :=
  List.insertionSort (fun a b => lexLeC a.toList b.toList = true) xs.dedup

/-- The merge phase of main in tools/pack_common_texts.py: run the loop
over all entries; with strict placeholders and a non-empty error list,
abort with PlaceholderMismatch listing the sorted distinct offending keys
(the output file is not created on this path); otherwise return the new
values and the report counters. -/
def mergeMain (entries : List PEntry)
    (mapping : List (String × String × String))
    (allowEmpty strict : Bool) :
    Except MergeError (List String × MergeReport) :=
  if strict ∧ (mergeLoop mapping allowEmpty strict entries).2.2.2.2 ≠ [] then
    .error (.PlaceholderMismatch
      (sortedUnique (mergeLoop mapping allowEmpty strict entries).2.2.2.2))
  else
    .ok ((mergeLoop mapping allowEmpty strict entries).1,
      ⟨(mergeLoop mapping allowEmpty strict entries).2.1,
        (mergeLoop mapping allowEmpty strict entries).2.2.1,
        (mergeLoop mapping allowEmpty strict entries).2.2.2.1⟩)

/-- An entry violating the strict placeholder policy: its key maps to a
non-empty translation whose placeholder counts or newline count differ
from the mapped source text. -/
def isOffender (mapping : List (String × String × String)) (e : PEntry) : Bool :=
  match dictGet mapping e.key with
  | none => false
  | some (src, tr) =>
    decide (tr ≠ "") &&
      (!(counterEq (findPlaceholders src.toList) (findPlaceholders tr.toList)) ||
        decide (countNl src ≠ countNl tr))

/-! ### C9 and C2: merge properties -/

theorem counterEq_iff_counts (a b : List (List Char)) :
    counterEq a b = true ↔ ∀ t, a.count t = b.count t := by
  rw [counterEq, Bool.and_eq_true, List.all_eq_true, List.all_eq_true]
  constructor
  · rintro ⟨ha, hb⟩ t
    by_cases hta : t ∈ a
    · simpa using ha t hta
    · by_cases htb : t ∈ b
      · simpa using hb t htb
      · rw [List.count_eq_zero_of_not_mem hta,
          List.count_eq_zero_of_not_mem htb]
  · intro h
    exact ⟨fun t _ => by simp [h t], fun t _ => by simp [h t]⟩

/-- C9: a merge against the empty translation mapping is the identity on
values for every option setting: every entry keeps its value,
missing_in_table equals the entry count, replaced and skipped_empty are
zero, and the merge succeeds. -/
theorem merge_empty_mapping (entries : List PEntry) (allowEmpty strict : Bool) :
    mergeMain entries [] allowEmpty strict =
      .ok (entries.map (fun e => e.value), ⟨entries.length, 0, 0⟩) := by
  have hloop : mergeLoop [] allowEmpty strict entries =
      (entries.map (fun e => e.value), entries.length, 0, 0, []) := by
    induction entries with
    | nil => rfl
    | cons e rest ih =>
      rw [mergeLoop, ih]
      rfl
  rw [mergeMain, hloop]
  simp

theorem mergeLoop_errs_mem (mapping : List (String × String × String))
    (allowEmpty : Bool) (entries : List PEntry) (k : String) :
    k ∈ (mergeLoop mapping allowEmpty true entries).2.2.2.2 ↔
      ∃ e ∈ entries, e.key = k ∧ isOffender mapping e = true := by
  induction entries with
  | nil => simp [mergeLoop]
  | cons e rest ih =>
    have hlift : (k ∈ (mergeLoop mapping allowEmpty true rest).2.2.2.2 ↔
        ∃ e2 ∈ rest, e2.key = k ∧ isOffender mapping e2 = true) := ih
    have hA : isOffender mapping e = false →
        (k ∈ (mergeLoop mapping allowEmpty true rest).2.2.2.2 ↔
          ∃ e2 ∈ e :: rest, e2.key = k ∧ isOffender mapping e2 = true) := by
      intro hoffF
      rw [hlift]
      constructor
      · rintro ⟨e2, hm, hk2, ho⟩
        exact ⟨e2, List.mem_cons_of_mem e hm, hk2, ho⟩
      · rintro ⟨e2, hm, hk2, ho⟩
        rcases List.mem_cons.mp hm with rfl | hm2
        · rw [hoffF] at ho
          exact Bool.noConfusion ho
        · exact ⟨e2, hm2, hk2, ho⟩
    rw [mergeLoop]
    rcases hd : dictGet mapping e.key with _ | ⟨src, tr⟩
    · simp only [hd]
      exact hA (by rw [isOffender, hd])
    · simp only [hd]
      by_cases htr : tr = ""
      · rw [if_pos htr]
        by_cases hae : allowEmpty = true
        · rw [if_pos hae]
          exact hA (by rw [isOffender, hd]; simp [htr])
        · rw [if_neg hae]
          exact hA (by rw [isOffender, hd]; simp [htr])
      · have hoff_iff : isOffender mapping e = true ↔
            (counterEq (findPlaceholders src.toList)
                (findPlaceholders tr.toList) = false ∨
              countNl src ≠ countNl tr) := by
          rw [isOffender, hd]
          simp [htr]
        rw [if_neg htr]
        show k ∈ ((if counterEq (findPlaceholders src.toList)
              (findPlaceholders tr.toList) = true then [] else [e.key]) ++
            (if countNl src = countNl tr then [] else [e.key])) ++
            (mergeLoop mapping allowEmpty true rest).2.2.2.2 ↔
          ∃ e2 ∈ e :: rest, e2.key = k ∧ isOffender mapping e2 = true
        constructor
        · intro hk
          rcases List.mem_append.mp hk with hk1 | hk2
          · have hsplit : k = e.key ∧
                (counterEq (findPlaceholders src.toList)
                    (findPlaceholders tr.toList) = false ∨
                  countNl src ≠ countNl tr) := by
              rcases List.mem_append.mp hk1 with h1 | h1
              · by_cases hc : counterEq (findPlaceholders src.toList)
                    (findPlaceholders tr.toList) = true
                · rw [if_pos hc] at h1
                  cases h1
                · rw [if_neg hc] at h1
                  exact ⟨List.mem_singleton.mp h1,
                    Or.inl (Bool.eq_false_iff.mpr hc)⟩
              · by_cases hnl : countNl src = countNl tr
                · rw [if_pos hnl] at h1
                  cases h1
                · rw [if_neg hnl] at h1
                  exact ⟨List.mem_singleton.mp h1, Or.inr hnl⟩
            obtain ⟨hkk, hcond⟩ := hsplit
            exact ⟨e, List.mem_cons_self e rest, hkk.symm, hoff_iff.mpr hcond⟩
          · obtain ⟨e2, hm, hk2, ho⟩ := hlift.mp hk2
            exact ⟨e2, List.mem_cons_of_mem e hm, hk2, ho⟩
        · rintro ⟨e2, hm, hk2, ho⟩
          rcases List.mem_cons.mp hm with rfl | hm2
          · apply List.mem_append.mpr
            left
            rcases hoff_iff.mp ho with hc | hc
            · apply List.mem_append.mpr
              left
              rw [if_neg (by rw [hc]; simp)]
              exact List.mem_singleton.mpr hk2.symm
            · apply List.mem_append.mpr
              right
              rw [if_neg hc]
              exact List.mem_singleton.mpr hk2.symm
          · exact List.mem_append.mpr
              (Or.inr (hlift.mpr ⟨e2, hm2, hk2, ho⟩))

theorem mem_sortedUnique (xs : List String) (k : String) :
    k ∈ sortedUnique xs ↔ k ∈ xs := by
  rw [sortedUnique, List.mem_insertionSort _, List.mem_dedup]

/-- C2: with strict placeholders the merge is all-or-nothing.  If any
entry whose key has a non-empty mapped translation mismatches on the
placeholder-token multiset or the newline count, the whole merge fails
with PlaceholderMismatch whose key list holds exactly the offending keys
(of every mismatching entry), and no output values are returned (in main
this error path returns before the output file is created). -/
theorem strict_merge_all_or_nothing (entries : List PEntry)
    (mapping : List (String × String × String)) (allowEmpty : Bool)
    (e : PEntry) (he : e ∈ entries) (hoff : isOffender mapping e = true) :
    ∃ keys, mergeMain entries mapping allowEmpty true =
        .error (.PlaceholderMismatch keys) ∧
      e.key ∈ keys ∧
      (∀ k, k ∈ keys ↔
        ∃ e2 ∈ entries, e2.key = k ∧ isOffender mapping e2 = true) := by
  have hmem : e.key ∈ (mergeLoop mapping allowEmpty true entries).2.2.2.2 :=
    (mergeLoop_errs_mem mapping allowEmpty entries e.key).mpr ⟨e, he, rfl, hoff⟩
  have hne : (mergeLoop mapping allowEmpty true entries).2.2.2.2 ≠ [] := by
    intro hnil
    rw [hnil] at hmem
    cases hmem
  refine ⟨sortedUnique (mergeLoop mapping allowEmpty true entries).2.2.2.2,
    ?_, ?_, ?_⟩
  · rw [mergeMain, if_pos ⟨rfl, hne⟩]
  · exact (mem_sortedUnique _ _).mpr hmem
  · intro k
    rw [mem_sortedUnique, mergeLoop_errs_mem]

/-- Witness for C2 at the concrete input of the specification: source
"Hello %s, you have %d items" against translation "Привіт %s" (missing
%d) aborts the strict merge listing the key greeting. -/
theorem strict_merge_all_or_nothing_witness :
    ∃ keys, mergeMain [⟨"greeting", "old"⟩]
        [("greeting", "Hello %s, you have %d items", "Привіт %s")] false true =
        .error (.PlaceholderMismatch keys) ∧
      ("greeting" : String) ∈ keys ∧
      (∀ k, k ∈ keys ↔
        ∃ e2 ∈ [(⟨"greeting", "old"⟩ : PEntry)], e2.key = k ∧
          isOffender [("greeting", "Hello %s, you have %d items",
            "Привіт %s")] e2 = true) :=
  strict_merge_all_or_nothing [⟨"greeting", "old"⟩]
    [("greeting", "Hello %s, you have %d items", "Привіт %s")] false
    ⟨"greeting", "old"⟩ (List.mem_singleton_self _) (by decide)

/-! ### C6: translation-table row validation

read_tsv of tools/pack_common_texts.py consumes the field lists produced
by csv.reader; parse_tsv of scripts/apply_tlk_tsv.py consumes raw lines
and splits on tab itself. -/

/-- Errors of the two table readers; the names follow the specification
(InvalidHeader, MalformedRow with the 1-based row number counting the
header line as row 1). -/
inductive TsvError where
  | InvalidHeader
  | MalformedRow (row : Nat)
deriving DecidableEq, Repr

/-- The data-row loop of read_tsv in tools/pack_common_texts.py: n rows
already consumed; a row with fewer than 4 fields fails naming row n + 2
(the Python counter is incremented before the check and the message adds
one); extra fields beyond the first 4 are ignored.  Returns the total row
count and the mapping entries (id, source, translation) in row order. -/
def readTsvRows : Nat → List (List String) →
    Except TsvError (Nat × List (String × String × String))
  | n, [] => .ok (n, [])
  | n, row :: rest =>
    if row.length < 4 then .error (.MalformedRow (n + 2))
    else
      match readTsvRows (n + 1) rest with
      | .error e => .error e
      | .ok (total, m) =>
        .ok (total, (row.getD 0 "", row.getD 2 "", row.getD 3 "") :: m)

/-- read_tsv from tools/pack_common_texts.py: the header must have at
least 4 fields and its first 4 must be id, flags, source, translation;
each data row must have at least 4 fields. -/
def read_tsv (rows : List (List String)) :
    Except TsvError (Nat × List (String × String × String)) :=
  match rows with
  | [] => .error .InvalidHeader
  | header :: dataRows =>
    if header.length < 4 then .error .InvalidHeader
    else if ¬ header.take 4 = ["id", "flags", "source", "translation"] then
      .error .InvalidHeader
    else readTsvRows 0 dataRows

/-- The line loop of parse_tsv in scripts/apply_tlk_tsv.py: 1-based line
numbers, line 1 (the header) skipped, every other line split on tab must
have exactly 4 fields. -/
def parseTsvLines : Nat → List String →
    Except TsvError (List (String × String × String × String))
  | _, [] => .ok []
  | ln, line :: rest =>
    if ln = 1 then parseTsvLines (ln + 1) rest
    else
      if (line.splitOn "\t").length ≠ 4 then .error (.MalformedRow ln)
      else
        match parseTsvLines (ln + 1) rest with
        | .error e => .error e
        | .ok rows =>
          .ok (((line.splitOn "\t").getD 0 "", (line.splitOn "\t").getD 1 "",
            (line.splitOn "\t").getD 2 "", (line.splitOn "\t").getD 3 "") :: rows)

/-- parse_tsv from scripts/apply_tlk_tsv.py. -/
def parse_tsv (lines : List String) :
    Except TsvError (List (String × String × String × String)) :=
  parseTsvLines 1 lines

theorem readTsvRows_ok_min4 (rows : List (List String)) (n : Nat)
    (res : Nat × List (String × String × String))
    (h : readTsvRows n rows = .ok res) : ∀ row ∈ rows, 4 ≤ row.length := by
  induction rows generalizing n res with
  | nil => intro row hrow; cases hrow
  | cons r rest ih =>
    intro row hrow
    rw [readTsvRows] at h
    by_cases hlen : r.length < 4
    · rw [if_pos hlen] at h
      exact Except.noConfusion h
    · rw [if_neg hlen] at h
      rcases List.mem_cons.mp hrow with rfl | hmem
      · omega
      · rcases hrec : readTsvRows (n + 1) rest with e | ⟨total, m⟩ <;>
          simp only [hrec] at h
        · exact Except.noConfusion h
        · exact ih (n + 1) (total, m) hrec row hmem

theorem readTsvRows_short (rows : List (List String)) (n i : Nat)
    (row : List String) (hrow : rows[i]? = some row)
    (hshort : row.length < 4)
    (hbefore : ∀ j row2, j < i → rows[j]? = some row2 → 4 ≤ row2.length) :
    readTsvRows n rows = .error (.MalformedRow (n + i + 2)) := by
  induction rows generalizing n i with
  | nil => simp at hrow
  | cons r rest ih =>
    cases i with
    | zero =>
      simp at hrow
      subst hrow
      rw [readTsvRows, if_pos hshort]
    | succ i2 =>
      have hr4 : 4 ≤ r.length := hbefore 0 r (by omega) (by simp)
      rw [readTsvRows, if_neg (by omega)]
      have hrec := ih (n + 1) i2 (by simpa using hrow)
        (fun j row2 hj hrow2 => hbefore (j + 1) row2 (by omega) (by simpa using hrow2))
      rw [hrec]
      have : n + 1 + i2 + 2 = n + (i2 + 1) + 2 := by omega
      rw [this]

theorem parseTsvLines_ok_4 (lines : List String) (ln : Nat)
    (rows : List (String × String × String × String))
    (h : parseTsvLines ln lines = .ok rows) :
    ∀ i line, lines[i]? = some line → ln + i ≠ 1 →
      (line.splitOn "\t").length = 4 := by
  induction lines generalizing ln rows with
  | nil => intro i line hline; simp at hline
  | cons l rest ih =>
    intro i line hline hni
    rw [parseTsvLines] at h
    by_cases hln : ln = 1
    · rw [if_pos hln] at h
      cases i with
      | zero => omega
      | succ i2 =>
        exact ih (ln + 1) rows h i2 line (by simpa using hline) (by omega)
    · rw [if_neg hln] at h
      by_cases hlen : (l.splitOn "\t").length ≠ 4
      · rw [if_pos hlen] at h
        exact Except.noConfusion h
      · rw [if_neg hlen] at h
        cases i with
        | zero =>
          simp at hline
          subst hline
          omega
        | succ i2 =>
          rcases hrec : parseTsvLines (ln + 1) rest with e | rows2 <;>
            simp only [hrec] at h
          · exact Except.noConfusion h
          · exact ih (ln + 1) rows2 hrec i2 line (by simpa using hline) (by omega)

/-- C6 amended: in the Translation Store (read_tsv of
tools/pack_common_texts.py) a data row with fewer than 4 fields makes the
load fail with MalformedRow naming the 1-based row number of the first
such row, and a load that succeeds saw only rows of at least 4 fields -
but rows with more than 4 fields are accepted, the extra fields ignored.
The companion reader parse_tsv of scripts/apply_tlk_tsv.py does demand
exactly 4 fields per non-header line. -/
theorem tsv_row_validation (dataRows : List (List String)) :
    (∀ res, read_tsv (["id", "flags", "source", "translation"] :: dataRows) =
        .ok res → ∀ row ∈ dataRows, 4 ≤ row.length) ∧
    (∀ i row, dataRows[i]? = some row → row.length < 4 →
        (∀ j row2, j < i → dataRows[j]? = some row2 → 4 ≤ row2.length) →
        read_tsv (["id", "flags", "source", "translation"] :: dataRows) =
          .error (.MalformedRow (i + 2))) ∧
    (∀ lines rows, parse_tsv lines = .ok rows →
        ∀ i line, lines[i]? = some line → i ≠ 0 →
          (line.splitOn "\t").length = 4) := by
  have hhdr : read_tsv (["id", "flags", "source", "translation"] :: dataRows) =
      readTsvRows 0 dataRows := by
    rw [read_tsv]
    rw [if_neg (by simp), if_neg (by simp)]
  refine ⟨?_, ?_, ?_⟩
  · intro res hok
    rw [hhdr] at hok
    exact readTsvRows_ok_min4 dataRows 0 res hok
  · intro i row hrow hshort hbefore
    rw [hhdr]
    have := readTsvRows_short dataRows 0 i row hrow hshort hbefore
    simpa using this
  · intro lines rows hok i line hline hi
    exact parseTsvLines_ok_4 lines 1 rows hok i line hline (by omega)

/-- C6 counterexample: a data row with 5 fields does not make loading
fail - read_tsv accepts it and ignores the extra field, refuting the
claim that any row without exactly 4 fields fails. -/
theorem tsv_long_row_accepted :
    read_tsv [["id", "flags", "source", "translation"],
        ["k", "1", "s", "t", "extra"]] =
      .ok (1, [("k", "s", "t")]) := by
  rfl

/-- Witness for C6 at a concrete input: a 2-field data row fails with
MalformedRow naming row 2. -/
theorem tsv_row_validation_witness :
    read_tsv [["id", "flags", "source", "translation"], ["k", "1"]] =
      .error (.MalformedRow 2) :=
  (tsv_row_validation [["k", "1"]]).2.1 0 ["k", "1"] rfl (by decide)
    (fun j row2 hj _ => absurd hj (by omega))

/-! ### C3: the TSV escaping pair of the TLK scripts -/

/-- Python str.replace: scan left to right, replacing each non-overlapping
occurrence of the needle and continuing after the inserted replacement. -/
def replaceAll (needle repl : List Char) (s : List Char) : List Char :=
  match s with
  | [] => []
  | c :: rest =>
    if h : needle ≠ [] ∧ needle.isPrefixOf (c :: rest) then
      repl ++ replaceAll needle repl ((c :: rest).drop needle.length)
    else c :: replaceAll needle repl rest
  termination_by s.length
  decreasing_by
  · simp only [List.length_drop, List.length_cons]
    have hne : needle.length ≥ 1 := by
      cases hn : needle
      · exact absurd hn h.1
      · simp
    omega
  · simp

/-- escape_tsv from scripts/extract_tlk_xml.py: double each backslash,
then replace newline, carriage return and tab by backslash-n, -r, -t. -/
def escape_tsv (s : List Char) : List Char :=
  replaceAll ['\t'] ['\\', 't']
    (replaceAll ['\r'] ['\\', 'r']
      (replaceAll ['\n'] ['\\', 'n']
        (replaceAll ['\\'] ['\\', '\\'] s)))

/-- unescape_tsv_field from scripts/apply_tlk_tsv.py: replace
backslash-n, -r, -t by the control characters first, and only then
collapse double backslashes. -/
def unescape_tsv_field (s : List Char) : List Char :=
  replaceAll ['\\', '\\'] ['\\']
    (replaceAll ['\\', 't'] ['\t']
      (replaceAll ['\\', 'r'] ['\r']
        (replaceAll ['\\', 'n'] ['\n'] s)))

/-- C3 (behavior of the code at the failing input): the two-character
string backslash-n escapes to backslash-backslash-n, but unescaping that
yields backslash-newline, because unescape_tsv_field replaces the
backslash-n sequence before collapsing the doubled backslash.  The
escape and import unescape therefore do not round-trip exactly. -/
theorem escape_unescape_not_inverse :
    unescape_tsv_field (escape_tsv ['\\', 'n']) = ['\\', '\n'] ∧
    (['\\', '\n'] : List Char) ≠ ['\\', 'n'] := by
  constructor
  · show replaceAll ['\\', '\\'] ['\\']
      (replaceAll ['\\', 't'] ['\t']
        (replaceAll ['\\', 'r'] ['\r']
          (replaceAll ['\\', 'n'] ['\n'] (escape_tsv ['\\', 'n'])))) = _
    have h1 : escape_tsv ['\\', 'n'] = ['\\', '\\', 'n'] := by
      simp [escape_tsv, replaceAll]
    rw [h1]
    simp [replaceAll]
  · decide

/-- Witness for the amended C5 at a concrete input: the first accepted
occurrence of key a_a supplies the value found in the emitted rows. -/
theorem scanner_rows_sorted_first_wins_witness :
    (scan_records asciiPrintable
        [3, 0, 98, 95, 98, 1, 0, 120, 0, 3, 0, 97, 95, 97, 1, 0, 120, 0]).find?
        (fun kv => kv.1 == [97, 95, 97]) = some ([97, 95, 97], [120]) :=
  (scanner_rows_sorted_first_wins asciiPrintable
      [3, 0, 98, 95, 98, 1, 0, 120, 0, 3, 0, 97, 95, 97, 1, 0, 120, 0]).2.2.2
    [97, 95, 97] [120] (by decide)
